import Mathlib

/-!
Verification of the ArchiveMaster merge engine (`archivemaster.py`).

The development shallowly embeds the `ArchiveMerger` class: archives are
modelled as lists of members, the filesystem as an association list from
absolute path strings to file contents (later writes shadow earlier ones),
and exceptions as `Except String`.  Machine-level aspects that the claims do
not touch (wall-clock time, byte sizes of containers, thread scheduling) are
not modelled.
-/

namespace ArchiveMaster

/-- Lowercase a string character-wise, as Python's `str.lower` does on the
ASCII extension strings used here. -/
def pyLower (s : String) : String := ⟨s.toList.map Char.toLower⟩

/-- The final path component of `s` (Python `PurePath.name` for the plain
file names used here): the characters after the last `'/'`. -/
def pyName (s : String) : List Char :=
  (s.toList.reverse.takeWhile (fun c => c ≠ '/')).reverse

/-- Python `PurePath.suffix`: the extension of the final component.  CPython
computes `i = name.rfind('.')` and returns `name[i:]` when `0 < i < len(name) - 1`,
else the empty string.  In particular the suffix of `"b.tar.gz"` is `".gz"`. -/
def pySuffix (s : String) : String :=
  let name := pyName s
  let afterDot := name.reverse.takeWhile (fun c => c ≠ '.')
  if afterDot.length < name.length ∧ 0 < afterDot.length ∧ afterDot.length + 1 < name.length
  then ⟨'.' :: afterDot.reverse⟩ else ""

/-- Python `member.endswith('/')`. -/
def endsSlash (s : String) : Bool := s.toList.getLast? = some '/'

/-- Python `pathlib` join `root / name`: an absolute right operand replaces
the left operand, otherwise the components are concatenated with `'/'`. -/
def pyJoin (root name : String) : String :=
  if name.toList.head? = some '/' then name else root ++ "/" ++ name

/-- Does the character list `p` start with the character list `q`? -/
def listStarts : List Char → List Char → Bool
  | [], _ => true
  | _ :: _, [] => false
  | a :: as, b :: bs => a = b && listStarts as bs

/-- Python `PurePath.relative_to(root)` restricted to the way the source uses
it (`file_path.relative_to(self.temp_dir)`): strips the leading `root ++ "/"`,
failing (`ValueError`, here `none`) when `file_path` does not lie below
`root`. -/
def relative_to (root p : String) : Option String :=
  let rcs := root.toList ++ ['/']
  if listStarts rcs p.toList then some ⟨p.toList.drop rcs.length⟩ else none

/-- A member name is benign when it is nonempty and relative; all ordinary
archive members satisfy this. -/
def goodName (n : String) : Bool :=
  !(n.toList = []) && !(n.toList.head? = some '/')

/-! ### Filesystem model

The extraction root's view of the disk: an association list from absolute
path strings to file contents.  A write prepends, so `read` returns the most
recent write; nothing in the merge engine ever deletes a file before the
final cleanup. -/

/-- Filesystem contents: most recent write first. -/
abbrev FS : Type := List (String × String)

/-- Write (create or overwrite) the file at absolute path `k`. -/
def FS.write (fs : FS) (k v : String) : FS := (k, v) :: fs

/-- Read the file at absolute path `q`, `none` when it does not exist. -/
def FS.read : FS → String → Option String
  | [], _ => none
  | (k, v) :: rest, q => if q = k then some v else FS.read rest q

/-! ### Archive model -/

/-- One member of a TAR archive: `tarfile.TarInfo` restricted to what the
source consults (`name`, `isfile()`, and the member bytes). -/
structure TarMember where
  name : String
  isFile : Bool
  content : String
deriving DecidableEq, Repr

/-- The container contents of an input file.  ZIP and RAR containers list
`(name, bytes)` pairs where directory markers are names ending in `'/'`;
TAR containers list `TarMember`s. -/
inductive ArchiveData where
  | zipData (entries : List (String × String))
  | rarData (entries : List (String × String))
  | tarData (members : List TarMember)
deriving DecidableEq, Repr

/-- An input archive: its filesystem path (whose extension drives dispatch)
together with its container contents. -/
structure Archive where
  path : String
  data : ArchiveData
deriving DecidableEq, Repr

/-- The shared loop body of `extract_rar` / `extract_zip` / `extract_tar`:
walk the member list, and for every member passing `keep`, record its name
and stream its bytes to `root / name` (directories are created as needed,
which the flat path-to-content filesystem model renders implicit).  Returns
the recorded names in listing order and the updated filesystem. -/
def extractFiltered (root : String) (keep : α → Bool) (nameOf : α → String)
    (contentOf : α → String) : FS → List α → List String × FS
  | fs, [] => ([], fs)
  | fs, it :: rest =>
    if keep it then
      let fs' := fs.write (pyJoin root (nameOf it)) (contentOf it)
      let (ex, fs'') := extractFiltered root keep nameOf contentOf fs' rest
      (nameOf it :: ex, fs'')
    else extractFiltered root keep nameOf contentOf fs rest

/-- `ArchiveMerger.extract_rar`: every member whose name does not end in
`'/'` is streamed to `temp_dir / member`. -/
def extract_rar (root : String) (fs : FS) (entries : List (String × String)) :
    List String × FS :=
  extractFiltered root (fun e => !endsSlash e.1) Prod.fst Prod.snd fs entries

/-- `ArchiveMerger.extract_zip`: identical loop to `extract_rar` over the ZIP
name list. -/
def extract_zip (root : String) (fs : FS) (entries : List (String × String)) :
    List String × FS :=
  extractFiltered root (fun e => !endsSlash e.1) Prod.fst Prod.snd fs entries

/-- `ArchiveMerger.extract_tar`: every member with `member.isfile()` is
extracted to the temp dir under `member.name` (the effect of
`tf.extract(member, self.temp_dir)` for the regular members modelled here). -/
def extract_tar (root : String) (fs : FS) (members : List TarMember) :
    List String × FS :=
  extractFiltered root (fun m => m.isFile) TarMember.name TarMember.content fs members

/-- The TAR-family extension list of lines 157 and 171 of the source. -/
def tarExts : List String := [".tar", ".tgz", ".tar.gz", ".tbz2", ".tar.bz2"]

/-- The probing loop body (lines 150-159): count non-directory members per
recognized extension.  An extension matching no branch contributes nothing.
Opening a container that is not of the extension's format raises (the
underlying library error is abstracted to a message). -/
def probeArchive (a : Archive) : Except String Nat :=
  if pyLower (pySuffix a.path) = ".rar" then
    match a.data with
    | .rarData es => .ok ((es.filter (fun e => !endsSlash e.1)).length)
    | _ => .error "bad rar file"
  else if pyLower (pySuffix a.path) = ".zip" then
    match a.data with
    | .zipData es => .ok ((es.filter (fun e => !endsSlash e.1)).length)
    | _ => .error "bad zip file"
  else if pyLower (pySuffix a.path) ∈ tarExts then
    match a.data with
    | .tarData ms => .ok ((ms.filter (fun m => m.isFile)).length)
    | _ => .error "bad tar file"
  else .ok 0

/-- Sum of `probeArchive` over the inputs (lines 149-161). -/
def probeTotal : List Archive → Except String Nat
  | [] => .ok 0
  | a :: rest =>
    match probeArchive a with
    | .error e => .error e
    | .ok n =>
      match probeTotal rest with
      | .error e => .error e
      | .ok m => .ok (n + m)

/-- The extension dispatch of lines 166-174: select the extractor by the
lowercased suffix, raising `ValueError` for anything unrecognized. -/
def extractArchive (root : String) (fs : FS) (a : Archive) :
    Except String (List String × FS) :=
  if pyLower (pySuffix a.path) = ".rar" then
    match a.data with
    | .rarData es => .ok (extract_rar root fs es)
    | _ => .error "bad rar file"
  else if pyLower (pySuffix a.path) = ".zip" then
    match a.data with
    | .zipData es => .ok (extract_zip root fs es)
    | _ => .error "bad zip file"
  else if pyLower (pySuffix a.path) ∈ tarExts then
    match a.data with
    | .tarData ms => .ok (extract_tar root fs ms)
    | _ => .error "bad tar file"
  else .error ("Unsupported archive format: " ++ pyLower (pySuffix a.path))

/-- Lines 177-180: of the names returned by the extractor, append to
`extracted_files` the full temp paths that exist on disk. -/
def collectRecords (root : String) (fs : FS) (names : List String) : List String :=
  (names.map (pyJoin root)).filter (fun p => (fs.read p).isSome)

/-- The extraction loop of lines 165-184, threading the filesystem, the
`extracted_files` list and the `processed_files` counter. -/
def extractLoop (root : String) :
    List Archive → FS → List String → Nat → Except String (FS × List String × Nat)
  | [], fs, recs, processed => .ok (fs, recs, processed)
  | a :: rest, fs, recs, processed =>
    match extractArchive root fs a with
    | .error e => .error e
    | .ok (extracted, fs') =>
      extractLoop root rest fs' (recs ++ collectRecords root fs' extracted)
        (processed + extracted.length)

/-! ### Sorting, as `sorted(self.extracted_files)`

Python compares paths by their (normalized) path strings; strings compare
lexicographically by code point.  The sort is modelled by insertion sort,
which produces the same sorted sequence. -/

/-- Code-point lexicographic `<=` on character lists. -/
def charListLe : List Char → List Char → Bool
  | [], _ => true
  | _ :: _, [] => false
  | a :: as, b :: bs => if a < b then true else if b < a then false else charListLe as bs

/-- Python string `<=`. -/
def strLe (a b : String) : Bool := charListLe a.toList b.toList

/-- Insert into a sorted list of path strings. -/
def insertSorted (x : String) : List String → List String
  | [] => [x]
  | y :: ys => if strLe x y then x :: y :: ys else y :: insertSorted x ys

/-- Python `sorted` on a list of path strings. -/
def pySorted : List String → List String
  | [] => []
  | x :: xs => insertSorted x (pySorted xs)

/-! ### Output archive creation -/

/-- The container kind actually opened for writing by
`create_output_archive`: either a ZIP in deflate mode with a numeric
compression level, or a `tarfile.open` write mode string. -/
inductive OutputKind where
  | zipDeflate (level : Nat)
  | tarMode (mode : String)
deriving DecidableEq, Repr

/-- The per-member write loop shared by all four output branches: for each
stored full path, the archive-internal name is `file_path.relative_to(temp_dir)`
and the bytes are the file's current on-disk content.  A path outside the
root or a missing file raises. -/
def writeEntries (root : String) (fs : FS) : List String → Except String (List (String × String))
  | [] => .ok []
  | p :: ps =>
    match relative_to root p, fs.read p with
    | some rel, some c =>
      match writeEntries root fs ps with
      | .error e => .error e
      | .ok rest => .ok ((rel, c) :: rest)
    | _, _ => .error "write failure"

/-- `ArchiveMerger.create_output_archive` (lines 110-141): pick the container
kind from `archive_type` (and, for `'tar'`, from the `compression` argument),
then add `sorted(self.extracted_files)` under their root-relative names.
When no branch matches, no output file is created, so the later
`output_path.stat()` call of `process_archives` raises; that exit is modelled
as the error case here. -/
def create_output_archive (root : String) (fs : FS) (extractedFiles : List String)
    (archive_type : String) (compression : String) (compression_level : Nat) :
    Except String (OutputKind × List (String × String)) :=
  let sortedFiles := pySorted extractedFiles
  if archive_type = "zip" then
    match writeEntries root fs sortedFiles with
    | .error e => .error e
    | .ok entries => .ok (.zipDeflate compression_level, entries)
  else if archive_type = "tar" then
    match writeEntries root fs sortedFiles with
    | .error e => .error e
    | .ok entries => .ok (.tarMode (if compression = "gzip" then "w:gz" else "w"), entries)
  else if archive_type = "tar.gz" then
    match writeEntries root fs sortedFiles with
    | .error e => .error e
    | .ok entries => .ok (.tarMode "w:gz", entries)
  else if archive_type = "tar.bz2" then
    match writeEntries root fs sortedFiles with
    | .error e => .error e
    | .ok entries => .ok (.tarMode "w:bz2", entries)
  else .error "no output file created"

/-! ### The merge pipeline -/

/-- The observable outcome of a successful `process_archives` call: the
returned dictionary's pure fields, plus the state needed to inspect the
produced archive (its member entries in write order) and the extraction
root's final contents. -/
structure ProcessResult where
  success : Bool
  totalInputFiles : Nat
  totalExtractedFiles : Nat
  totalFiles : Nat
  processedFiles : Nat
  records : List String
  outputKind : OutputKind
  entries : List (String × String)
  fs : FS
deriving DecidableEq, Repr

/-- The archive-internal names of the output, in write order. -/
def ProcessResult.manifest (r : ProcessResult) : List String := r.entries.map Prod.fst

/-- `ArchiveMerger.process_archives` (lines 143-197): probe all inputs,
extract them in order into the temp root, write the combined archive, and
return the success dictionary. -/
def process_archives (root : String) (archive_paths : List Archive)
    (output_type : String) (compression : String) (compression_level : Nat) :
    Except String ProcessResult :=
  match probeTotal archive_paths with
  | .error e => .error e
  | .ok total =>
    match extractLoop root archive_paths [] [] 0 with
    | .error e => .error e
    | .ok (fs, recs, processed) =>
      match create_output_archive root fs recs output_type compression compression_level with
      | .error e => .error e
      | .ok (kind, entries) =>
        .ok { success := true
              totalInputFiles := archive_paths.length
              totalExtractedFiles := recs.length
              totalFiles := total
              processedFiles := processed
              records := recs
              outputKind := kind
              entries := entries
              fs := fs }

/-! ### Scoped temp-directory lifetime -/

/-- Whether the extraction root directory currently exists. -/
inductive TempDirState where
  | present
  | absent
deriving DecidableEq, Repr

/-- `__exit__` (lines 53-55): remove the temp directory if it exists. -/
def exitCleanup : TempDirState → TempDirState
  | _ => .absent

/-- The `with ArchiveMerger(...) as merger:` block around a merge: `__enter__`
creates the temp directory, the body runs and either returns or raises, and
`__exit__` runs on both exits.  Returns the propagated outcome together with
the temp directory's final state. -/
def withMerger (body : Except String ProcessResult) :
    Except String ProcessResult × TempDirState :=
  let dirState : TempDirState := .present
  match body with
  | .ok r => (.ok r, exitCleanup dirState)
  | .error e => (.error e, exitCleanup dirState)

/-! ### Result extractors, used to state claims without binding a whole
`ProcessResult` -/

/-- The `success` field of a normally-returning call. -/
def successOf (e : Except String ProcessResult) : Option Bool :=
  e.toOption.map ProcessResult.success

/-- The `total_extracted_files` count of a normally-returning call. -/
def countOf (e : Except String ProcessResult) : Option Nat :=
  e.toOption.map ProcessResult.totalExtractedFiles

/-- The output manifest (archive-internal names in write order). -/
def manifestOf (e : Except String ProcessResult) : Option (List String) :=
  e.toOption.map ProcessResult.manifest

/-- The number of members written to the output. -/
def manifestLenOf (e : Except String ProcessResult) : Option Nat :=
  e.toOption.map (fun r => r.manifest.length)

/-- The `extracted_files` list of a normally-returning call. -/
def recordsOf (e : Except String ProcessResult) : Option (List String) :=
  e.toOption.map ProcessResult.records

/-- The container kind of the produced output. -/
def kindOf (e : Except String ProcessResult) : Option OutputKind :=
  e.toOption.map ProcessResult.outputKind

/-- Reading member `p` back from the produced archive: with duplicate member
names, `zipfile`'s name table keeps the last entry, and sequential `tar`
extraction overwrites earlier duplicates, so both yield the last written
entry. -/
def readOutput (e : Except String ProcessResult) (p : String) : Option String :=
  e.toOption.bind (fun r => ((r.entries.filter (fun en => en.1 = p)).map Prod.snd).getLast?)

/-- The extraction root's view of the disk after the run. -/
def fsReadOf (e : Except String ProcessResult) (q : String) : Option String :=
  e.toOption.bind (fun r => r.fs.read q)

/-- The container kind selected by a call to `create_output_archive`. -/
def kindOfCreate (e : Except String (OutputKind × List (String × String))) :
    Option OutputKind :=
  e.toOption.map Prod.fst

/-! ### Derived views of the dispatch, used to state and prove the general
theorems -/

/-- The `(name, bytes)` pairs the extension dispatch would extract from `a`,
in listing order: ZIP/RAR members whose names do not end in `'/'`, TAR
members that are regular files.  `none` exactly when the dispatch of
`extractArchive` raises (unsupported extension or a container that does not
match its extension). -/
def archivePairs (a : Archive) : Option (List (String × String)) :=
  if pyLower (pySuffix a.path) = ".rar" then
    match a.data with
    | .rarData es => some (es.filter (fun e => !endsSlash e.1))
    | _ => none
  else if pyLower (pySuffix a.path) = ".zip" then
    match a.data with
    | .zipData es => some (es.filter (fun e => !endsSlash e.1))
    | _ => none
  else if pyLower (pySuffix a.path) ∈ tarExts then
    match a.data with
    | .tarData ms => some ((ms.filter (fun m => m.isFile)).map (fun m => (m.name, m.content)))
    | _ => none
  else none

/-- Extraction specialised to a plain list of `(name, bytes)` pairs, all of
which are written. -/
def extractPairs (root : String) (fs : FS) (ps : List (String × String)) :
    List String × FS :=
  extractFiltered root (fun _ => true) Prod.fst Prod.snd fs ps

/-- The filesystem after extracting each input in order, starting from `fs`.
Inputs whose dispatch would fail contribute nothing; the characterizations
proved below are only used under hypotheses that rule such inputs out. -/
def applyAll (root : String) : FS → List Archive → FS
  | fs, [] => fs
  | fs, a :: rest => applyAll root (extractPairs root fs ((archivePairs a).getD [])).2 rest

/-- All extracted `(name, bytes)` pairs over the inputs, in extraction
order. -/
def allPairs (inputs : List Archive) : List (String × String) :=
  inputs.flatMap (fun a => (archivePairs a).getD [])

/-- All extracted member names over the inputs, in extraction order. -/
def allNames (inputs : List Archive) : List String :=
  (allPairs inputs).map Prod.fst

/-- Overlay of a possible fresh write over older filesystem contents. -/
def overlay (o fallback : Option String) : Option String :=
  match o with
  | some c => some c
  | none => fallback

/-- The content of the last pair in `ps` whose write target `pyJoin root name`
equals `q`, later pairs taking precedence. -/
def lastWrite (root q : String) : List (String × String) → Option String
  | [] => none
  | (n, c) :: rest =>
    match lastWrite root q rest with
    | some c' => some c'
    | none => if q = pyJoin root n then some c else none

/-- The content of the last pair in `ps` named `p`, later pairs taking
precedence. -/
def lastNamed (p : String) : List (String × String) → Option String
  | [] => none
  | (n, c) :: rest =>
    match lastNamed p rest with
    | some c' => some c'
    | none => if n = p then some c else none

/-- The container kind the four recognized output branches select. -/
def kindFor (archive_type compression : String) (compression_level : Nat) : OutputKind :=
  if archive_type = "zip" then .zipDeflate compression_level
  else if archive_type = "tar" then .tarMode (if compression = "gzip" then "w:gz" else "w")
  else if archive_type = "tar.gz" then .tarMode "w:gz"
  else .tarMode "w:bz2"

/-- Member names are benign throughout the archive. -/
abbrev goodArchive (a : Archive) : Prop :=
  (archivePairs a).isSome = true ∧ ∀ pr ∈ (archivePairs a).getD [], goodName pr.1 = true

/-- Follows the spec's invariant wording (spec §3): the records are, summed
over all inputs in order, the non-directory members the adapter lists for
that input that are actually present on disk (at their joined temp path)
after that input's extraction; a listed-but-missing member is dropped without
an error.  `none` when an input's dispatch or extraction itself fails. -/
def specPresentRecords (root : String) : List Archive → FS → Option (List String)
  | [], _ => some []
  | a :: rest, fs =>
    match archivePairs a, extractArchive root fs a with
    | some ps, .ok (_, fs') =>
      match specPresentRecords root rest fs' with
      | some tail =>
          some ((((ps.map Prod.fst).filter
            (fun n => (fs'.read (pyJoin root n)).isSome)).map (pyJoin root)) ++ tail)
      | none => none
    | _, _ => none

/-! ### Concrete inputs used by the witnesses and counterexamples -/

/-- A ZIP archive `a.zip` containing one file `x.txt` with content `"1"`. -/
def sampleAZip : Archive := ⟨"a.zip", .zipData [("x.txt", "1")]⟩

/-- A gzip-compressed TAR archive `b.tar.gz` containing `x.txt` = `"2"` and
`y.txt` = `"3"`. -/
def sampleBTarGz : Archive :=
  ⟨"b.tar.gz", .tarData [⟨"x.txt", true, "2"⟩, ⟨"y.txt", true, "3"⟩]⟩

/-- A bzip2-compressed TAR archive `c.tar.bz2` containing one file. -/
def sampleCTarBz2 : Archive := ⟨"c.tar.bz2", .tarData [⟨"z.txt", true, "4"⟩]⟩

/-- A ZIP archive `b.zip` that collides with `sampleAZip` on `x.txt`. -/
def sampleBZip : Archive := ⟨"b.zip", .zipData [("x.txt", "2")]⟩

/-- An input with an extension no branch recognizes. -/
def sampleSevenZ : Archive := ⟨"archive.7z", .zipData [("q.txt", "5")]⟩

/-- Does the extension dispatch of `process_archives` recognize this input's
lowercased suffix? -/
abbrev supportedExt (a : Archive) : Prop :=
  pyLower (pySuffix a.path) = ".rar" ∨ pyLower (pySuffix a.path) = ".zip"
    ∨ pyLower (pySuffix a.path) ∈ tarExts

/-- The number of distinct member names written to the output. -/
def uniqueCountOf (e : Except String ProcessResult) : Option Nat :=
  e.toOption.map (fun r => r.manifest.eraseDups.length)

/-! ## Lemmas: strings and paths -/

theorem toList_mk (l : List Char) : (String.mk l).toList = l := rfl

theorem mk_toList (s : String) : String.mk s.toList = s := by
  cases s
  rfl

theorem toList_inj {a b : String} (h : a.toList = b.toList) : a = b := by
  rw [← mk_toList a, ← mk_toList b, h]

theorem toList_append (a b : String) : (a ++ b).toList = a.toList ++ b.toList :=
  String.data_append a b

theorem toList_join (root n : String) :
    (root ++ "/" ++ n).toList = (root.toList ++ ['/']) ++ n.toList := by
  rw [show root ++ "/" ++ n = (root ++ "/") ++ n from rfl, toList_append, toList_append]
  rfl

theorem pyJoin_good (root : String) {n : String} (h : goodName n = true) :
    pyJoin root n = root ++ "/" ++ n := by
  simp only [goodName, Bool.and_eq_true, Bool.not_eq_true', decide_eq_false_iff_not] at h
  exact if_neg h.2

theorem listStarts_self_append (p r : List Char) : listStarts p (p ++ r) = true := by
  induction p with
  | nil => rfl
  | cons a as ih => simp [listStarts, ih]

theorem relative_to_join (root n : String) :
    relative_to root (root ++ "/" ++ n) = some n := by
  unfold relative_to
  rw [toList_join, if_pos (listStarts_self_append _ _)]
  have hdrop : ((root.toList ++ ['/']) ++ n.toList).drop (root.toList ++ ['/']).length
      = n.toList := List.drop_left _ _
  rw [hdrop, mk_toList]

theorem join_inj (root : String) {a b : String} (ha : goodName a = true)
    (hb : goodName b = true) (h : pyJoin root a = pyJoin root b) : a = b := by
  rw [pyJoin_good root ha, pyJoin_good root hb] at h
  have h2 : (root ++ "/" ++ a).toList = (root ++ "/" ++ b).toList := by rw [h]
  rw [toList_join, toList_join] at h2
  exact toList_inj (List.append_cancel_left h2)

/-! ## Lemmas: sorting -/

theorem charListLe_append (p a b : List Char) :
    charListLe (p ++ a) (p ++ b) = charListLe a b := by
  induction p with
  | nil => rfl
  | cons c cs ih => simp [charListLe, ih, lt_irrefl]

theorem strLe_join (root a b : String) :
    strLe (root ++ "/" ++ a) (root ++ "/" ++ b) = strLe a b := by
  unfold strLe
  rw [toList_join, toList_join, charListLe_append]

theorem insertSorted_map (f : String → String)
    (hf : ∀ a b, strLe (f a) (f b) = strLe a b) (x : String) (l : List String) :
    insertSorted (f x) (l.map f) = (insertSorted x l).map f := by
  induction l with
  | nil => rfl
  | cons y ys ih =>
    simp only [List.map_cons, insertSorted, hf]
    by_cases h : strLe x y = true
    · rw [if_pos h, if_pos h]
      rfl
    · rw [if_neg h, if_neg h, List.map_cons, ih]

theorem pySorted_map (f : String → String)
    (hf : ∀ a b, strLe (f a) (f b) = strLe a b) (l : List String) :
    pySorted (l.map f) = (pySorted l).map f := by
  induction l with
  | nil => rfl
  | cons x xs ih => rw [List.map_cons, pySorted, pySorted, ih, insertSorted_map f hf]

theorem insertSorted_length (x : String) (l : List String) :
    (insertSorted x l).length = l.length + 1 := by
  induction l with
  | nil => rfl
  | cons y ys ih =>
    by_cases h : strLe x y = true
    · simp [insertSorted, h]
    · simp [insertSorted, h, ih]

theorem pySorted_length (l : List String) : (pySorted l).length = l.length := by
  induction l with
  | nil => rfl
  | cons x xs ih => rw [pySorted, insertSorted_length, ih, List.length_cons]

theorem mem_insertSorted {a x : String} {l : List String} :
    a ∈ insertSorted x l ↔ a = x ∨ a ∈ l := by
  induction l with
  | nil => simp [insertSorted]
  | cons y ys ih =>
    unfold insertSorted
    by_cases h : strLe x y = true
    · rw [if_pos h]
      simp
    · rw [if_neg h]
      simp only [List.mem_cons, ih]
      tauto

theorem mem_pySorted {a : String} {l : List String} : a ∈ pySorted l ↔ a ∈ l := by
  induction l with
  | nil => simp [pySorted]
  | cons x xs ih => simp [pySorted, mem_insertSorted, ih]

/-! ## Lemmas: extraction -/

theorem extractFiltered_eq_extractPairs (root : String) (keep : α → Bool)
    (nameOf contentOf : α → String) (fs : FS) (items : List α) :
    extractFiltered root keep nameOf contentOf fs items
      = extractPairs root fs ((items.filter keep).map (fun it => (nameOf it, contentOf it))) := by
  induction items generalizing fs with
  | nil => rfl
  | cons it rest ih =>
    by_cases h : keep it = true
    · simp only [extractFiltered, h, if_true, List.filter_cons_of_pos h, List.map_cons]
      rw [ih]
      rfl
    · simp only [extractFiltered, if_neg h, List.filter_cons_of_neg h, ih]

theorem extractPairs_fst (root : String) (fs : FS) (ps : List (String × String)) :
    (extractPairs root fs ps).1 = ps.map Prod.fst := by
  induction ps generalizing fs with
  | nil => rfl
  | cons p rest ih =>
    simp only [extractPairs, extractFiltered, if_true]
    rw [show (extractFiltered root (fun _ => true) Prod.fst Prod.snd
      (fs.write (pyJoin root p.1) p.2) rest)
        = extractPairs root (fs.write (pyJoin root p.1) p.2) rest from rfl, ih]
    rfl

theorem read_write (fs : FS) (k v q : String) :
    (fs.write k v).read q = if q = k then some v else fs.read q := rfl

theorem overlay_none_right (o : Option String) : overlay o none = o := by
  cases o <;> rfl

theorem overlay_assoc (a b c : Option String) :
    overlay (overlay a b) c = overlay a (overlay b c) := by
  cases a <;> cases b <;> rfl

theorem overlay_isSome_left {a : Option String} (h : a.isSome = true)
    (b : Option String) : (overlay a b).isSome = true := by
  cases a with
  | none => exact absurd h (by simp)
  | some c => rfl

theorem extractPairs_read (root : String) (fs : FS) (ps : List (String × String))
    (q : String) :
    (extractPairs root fs ps).2.read q = overlay (lastWrite root q ps) (fs.read q) := by
  induction ps generalizing fs with
  | nil => rfl
  | cons p rest ih =>
    obtain ⟨n, c⟩ := p
    have hunf : (extractPairs root fs ((n, c) :: rest)).2
        = (extractPairs root (fs.write (pyJoin root n) c) rest).2 := rfl
    rw [hunf, ih]
    show overlay (lastWrite root q rest) ((fs.write (pyJoin root n) c).read q)
      = overlay (lastWrite root q ((n, c) :: rest)) (fs.read q)
    rw [read_write]
    cases hlw : lastWrite root q rest with
    | some c' => simp [overlay, lastWrite, hlw]
    | none =>
      by_cases hq : q = pyJoin root n
      · subst hq
        simp [overlay, lastWrite, hlw]
      · simp [overlay, lastWrite, hlw, hq]

theorem lastWrite_append (root q : String) (xs ys : List (String × String)) :
    lastWrite root q (xs ++ ys) = overlay (lastWrite root q ys) (lastWrite root q xs) := by
  induction xs with
  | nil => rw [List.nil_append, show lastWrite root q [] = none from rfl, overlay_none_right]
  | cons p rest ih =>
    obtain ⟨n, c⟩ := p
    rw [List.cons_append]
    show (match lastWrite root q (rest ++ ys) with
      | some c' => some c'
      | none => if q = pyJoin root n then some c else none)
      = overlay (lastWrite root q ys) (lastWrite root q ((n, c) :: rest))
    rw [ih]
    cases hys : lastWrite root q ys with
    | some c' => simp [overlay]
    | none =>
      cases hrest : lastWrite root q rest with
      | some c' => simp [overlay, lastWrite, hrest]
      | none => simp [overlay, lastWrite, hrest]

theorem lastWrite_join_isSome (root : String) {n c : String}
    {ps : List (String × String)} (h : (n, c) ∈ ps) :
    (lastWrite root (pyJoin root n) ps).isSome = true := by
  induction ps with
  | nil => exact absurd h (by simp)
  | cons p rest ih =>
    show (match lastWrite root (pyJoin root n) rest with
      | some c' => some c'
      | none => if pyJoin root n = pyJoin root p.1 then some p.2 else none).isSome = true
    cases hrest : lastWrite root (pyJoin root n) rest with
    | some c' => rfl
    | none =>
      rcases List.mem_cons.mp h with heq | hmem
      · rw [show p = (n, c) from heq.symm]
        simp
      · exact absurd (ih hmem) (by simp [hrest])

theorem collectRecords_extracted (root : String) (fs : FS)
    (ps : List (String × String)) :
    collectRecords root (extractPairs root fs ps).2 (ps.map Prod.fst)
      = (ps.map Prod.fst).map (pyJoin root) := by
  unfold collectRecords
  apply List.filter_eq_self.mpr
  intro p hp
  rw [List.map_map] at hp
  obtain ⟨pr, hpr, hval⟩ := List.mem_map.mp hp
  simp only [Function.comp_apply] at hval
  have : ((extractPairs root fs ps).2.read (pyJoin root pr.1)).isSome = true := by
    rw [extractPairs_read]
    exact overlay_isSome_left (lastWrite_join_isSome root hpr) _
  rw [← hval]
  simpa using this

/-! ## Lemmas: dispatch -/

theorem extract_zip_eq (root : String) (fs : FS) (es : List (String × String)) :
    extract_zip root fs es = extractPairs root fs (es.filter (fun e => !endsSlash e.1)) := by
  rw [extract_zip, extractFiltered_eq_extractPairs,
    show (fun (e : String × String) => (e.1, e.2)) = (id : String × String → String × String)
      from rfl, List.map_id]

theorem extract_rar_eq (root : String) (fs : FS) (es : List (String × String)) :
    extract_rar root fs es = extractPairs root fs (es.filter (fun e => !endsSlash e.1)) := by
  rw [extract_rar, extractFiltered_eq_extractPairs,
    show (fun (e : String × String) => (e.1, e.2)) = (id : String × String → String × String)
      from rfl, List.map_id]

theorem extract_tar_eq (root : String) (fs : FS) (ms : List TarMember) :
    extract_tar root fs ms
      = extractPairs root fs ((ms.filter (fun m => m.isFile)).map (fun m => (m.name, m.content))) := by
  rw [extract_tar, extractFiltered_eq_extractPairs]

theorem extractArchive_of_pairs (root : String) (fs : FS) {a : Archive}
    {ps : List (String × String)} (h : archivePairs a = some ps) :
    extractArchive root fs a = .ok (ps.map Prod.fst, (extractPairs root fs ps).2) := by
  unfold archivePairs at h
  unfold extractArchive
  by_cases h1 : pyLower (pySuffix a.path) = ".rar"
  · rw [if_pos h1] at h ⊢
    cases hd : a.data with
    | zipData es => rw [hd] at h; cases h
    | rarData es =>
      rw [hd] at h
      simp only [Option.some.injEq] at h
      subst h
      show Except.ok (extract_rar root fs es) = _
      rw [extract_rar_eq]
      exact congrArg Except.ok (Prod.ext (extractPairs_fst root fs _) rfl)
    | tarData ms => rw [hd] at h; cases h
  · rw [if_neg h1] at h ⊢
    by_cases h2 : pyLower (pySuffix a.path) = ".zip"
    · rw [if_pos h2] at h ⊢
      cases hd : a.data with
      | zipData es =>
        rw [hd] at h
        simp only [Option.some.injEq] at h
        subst h
        show Except.ok (extract_zip root fs es) = _
        rw [extract_zip_eq]
        exact congrArg Except.ok (Prod.ext (extractPairs_fst root fs _) rfl)
      | rarData es => rw [hd] at h; cases h
      | tarData ms => rw [hd] at h; cases h
    · rw [if_neg h2] at h ⊢
      by_cases h3 : pyLower (pySuffix a.path) ∈ tarExts
      · rw [if_pos h3] at h ⊢
        cases hd : a.data with
        | zipData es => rw [hd] at h; cases h
        | rarData es => rw [hd] at h; cases h
        | tarData ms =>
          rw [hd] at h
          simp only [Option.some.injEq] at h
          subst h
          show Except.ok (extract_tar root fs ms) = _
          rw [extract_tar_eq]
          exact congrArg Except.ok (Prod.ext (extractPairs_fst root fs _) rfl)
      · rw [if_neg h3] at h
        cases h

theorem probeArchive_of_pairs {a : Archive} {ps : List (String × String)}
    (h : archivePairs a = some ps) : probeArchive a = .ok ps.length := by
  unfold archivePairs at h
  unfold probeArchive
  by_cases h1 : pyLower (pySuffix a.path) = ".rar"
  · rw [if_pos h1] at h ⊢
    cases hd : a.data with
    | zipData es => rw [hd] at h; cases h
    | rarData es =>
      rw [hd] at h
      simp only [Option.some.injEq] at h
      subst h
      rfl
    | tarData ms => rw [hd] at h; cases h
  · rw [if_neg h1] at h ⊢
    by_cases h2 : pyLower (pySuffix a.path) = ".zip"
    · rw [if_pos h2] at h ⊢
      cases hd : a.data with
      | zipData es =>
        rw [hd] at h
        simp only [Option.some.injEq] at h
        subst h
        rfl
      | rarData es => rw [hd] at h; cases h
      | tarData ms => rw [hd] at h; cases h
    · rw [if_neg h2] at h ⊢
      by_cases h3 : pyLower (pySuffix a.path) ∈ tarExts
      · rw [if_pos h3] at h ⊢
        cases hd : a.data with
        | zipData es => rw [hd] at h; cases h
        | rarData es => rw [hd] at h; cases h
        | tarData ms =>
          rw [hd] at h
          simp only [Option.some.injEq] at h
          subst h
          simp
      · rw [if_neg h3] at h
        cases h

theorem probeTotal_of_pairs (inputs : List Archive)
    (h : ∀ a ∈ inputs, (archivePairs a).isSome = true) :
    probeTotal inputs = .ok (allNames inputs).length := by
  induction inputs with
  | nil => rfl
  | cons a rest ih =>
    obtain ⟨ps, hps⟩ := Option.isSome_iff_exists.mp (h a (by simp))
    rw [probeTotal, probeArchive_of_pairs hps, ih (fun b hb => h b (by simp [hb]))]
    simp [allNames, allPairs, hps]

/-! ## Lemmas: the extraction loop -/

theorem allPairs_cons (a : Archive) (rest : List Archive) :
    allPairs (a :: rest) = (archivePairs a).getD [] ++ allPairs rest := by
  simp [allPairs]

theorem allNames_cons (a : Archive) (rest : List Archive) :
    allNames (a :: rest) = ((archivePairs a).getD []).map Prod.fst ++ allNames rest := by
  simp [allNames, allPairs_cons]

theorem applyAll_read (root : String) (inputs : List Archive) (fs : FS) (q : String) :
    (applyAll root fs inputs).read q
      = overlay (lastWrite root q (allPairs inputs)) (fs.read q) := by
  induction inputs generalizing fs with
  | nil => rfl
  | cons a rest ih =>
    rw [applyAll, ih, extractPairs_read, allPairs_cons, lastWrite_append, overlay_assoc]

theorem extractLoop_cons_ok (root : String) {a : Archive}
    {ps : List (String × String)} (hps : archivePairs a = some ps) (ys : List Archive)
    (fs : FS) (recs : List String) (k : Nat) :
    extractLoop root (a :: ys) fs recs k
      = extractLoop root ys (extractPairs root fs ps).2
          (recs ++ (ps.map Prod.fst).map (pyJoin root)) (k + ps.length) := by
  have h1 : extractLoop root (a :: ys) fs recs k
      = match extractArchive root fs a with
        | .error e => .error e
        | .ok (extracted, fs') =>
          extractLoop root ys fs' (recs ++ collectRecords root fs' extracted)
            (k + extracted.length) := rfl
  rw [h1, extractArchive_of_pairs root fs hps]
  show extractLoop root ys (extractPairs root fs ps).2
      (recs ++ collectRecords root (extractPairs root fs ps).2 (ps.map Prod.fst))
      (k + (ps.map Prod.fst).length) = _
  rw [collectRecords_extracted, List.length_map]

theorem extractLoop_append (root : String) (pre : List Archive)
    (h : ∀ a ∈ pre, (archivePairs a).isSome = true) (ys : List Archive) :
    ∀ fs recs k, extractLoop root (pre ++ ys) fs recs k
      = extractLoop root ys (applyAll root fs pre)
          (recs ++ (allNames pre).map (pyJoin root)) (k + (allNames pre).length) := by
  induction pre with
  | nil =>
    intro fs recs k
    simp [applyAll, allNames, allPairs]
  | cons a rest ih =>
    intro fs recs k
    obtain ⟨ps, hps⟩ := Option.isSome_iff_exists.mp (h a (by simp))
    rw [List.cons_append, extractLoop_cons_ok root hps, ih (fun b hb => h b (by simp [hb])),
      applyAll, allNames_cons, hps]
    simp [List.map_append, List.append_assoc, Nat.add_assoc]

theorem extractLoop_ok (root : String) (inputs : List Archive)
    (h : ∀ a ∈ inputs, (archivePairs a).isSome = true) :
    extractLoop root inputs [] [] 0
      = .ok (applyAll root [] inputs, (allNames inputs).map (pyJoin root),
          (allNames inputs).length) := by
  have := extractLoop_append root inputs h [] [] [] 0
  rw [List.append_nil] at this
  rw [this, List.nil_append, Nat.zero_add]
  rfl

/-! ## Lemmas: writing the output -/

theorem writeEntries_ok (root : String) (fs : FS) (ps : List String)
    (h : ∀ p ∈ ps, (relative_to root p).isSome = true ∧ (fs.read p).isSome = true) :
    writeEntries root fs ps
      = .ok (ps.map (fun p => ((relative_to root p).getD "", (fs.read p).getD ""))) := by
  induction ps with
  | nil => rfl
  | cons p rest ih =>
    obtain ⟨h1, h2⟩ := h p (by simp)
    obtain ⟨rel, hrel⟩ := Option.isSome_iff_exists.mp h1
    obtain ⟨c, hc⟩ := Option.isSome_iff_exists.mp h2
    simp only [writeEntries]
    rw [hrel, hc, ih (fun q hq => h q (by simp [hq]))]
    simp [hrel, hc]

theorem writeEntries_length (root : String) (fs : FS) :
    ∀ (ps : List String) (es : List (String × String)),
      writeEntries root fs ps = .ok es → es.length = ps.length := by
  intro ps
  induction ps with
  | nil =>
    intro es h
    cases h
    rfl
  | cons p rest ih =>
    intro es h
    cases hrel : relative_to root p with
    | none =>
      simp [writeEntries, hrel] at h
    | some rel =>
      cases hc : fs.read p with
      | none =>
        simp [writeEntries, hrel, hc] at h
      | some c =>
        simp only [writeEntries] at h
        rw [hrel, hc] at h
        cases hw : writeEntries root fs rest with
        | error e =>
          rw [hw] at h
          exact Except.noConfusion h
        | ok rest' =>
          rw [hw] at h
          cases h
          simp [ih rest' hw]

theorem create_ok (root : String) (fs : FS) (files : List String) (t c : String)
    (lvl : Nat) (hT : t ∈ (["zip", "tar", "tar.gz", "tar.bz2"] : List String))
    (h : ∀ p ∈ pySorted files, (relative_to root p).isSome = true ∧ (fs.read p).isSome = true) :
    create_output_archive root fs files t c lvl
      = .ok (kindFor t c lvl,
          (pySorted files).map (fun p => ((relative_to root p).getD "", (fs.read p).getD ""))) := by
  have hw := writeEntries_ok root fs (pySorted files) h
  simp only [List.mem_cons, List.not_mem_nil, or_false] at hT
  rcases hT with rfl | rfl | rfl | rfl
  · simp [create_output_archive, kindFor, hw]
  · simp [create_output_archive, kindFor, hw]
  · simp [create_output_archive, kindFor, hw]
  · simp [create_output_archive, kindFor, hw]

/-! ## Lemmas: the full pipeline on well-formed inputs -/

theorem allNames_good {inputs : List Archive} (hG : ∀ a ∈ inputs, goodArchive a) :
    ∀ n ∈ allNames inputs, goodName n = true := by
  intro n hn
  obtain ⟨pr, hpr, rfl⟩ := List.mem_map.mp hn
  obtain ⟨a, ha, hpa⟩ := List.mem_flatMap.mp hpr
  exact (hG a ha).2 pr hpa

theorem process_good (root : String) (inputs : List Archive) (t c : String) (lvl : Nat)
    (hG : ∀ a ∈ inputs, goodArchive a)
    (hT : t ∈ (["zip", "tar", "tar.gz", "tar.bz2"] : List String)) :
    process_archives root inputs t c lvl
      = .ok { success := true
              totalInputFiles := inputs.length
              totalExtractedFiles := (allNames inputs).length
              totalFiles := (allNames inputs).length
              processedFiles := (allNames inputs).length
              records := (allNames inputs).map (pyJoin root)
              outputKind := kindFor t c lvl
              entries := (pySorted (allNames inputs)).map
                (fun n => (n, ((applyAll root [] inputs).read (pyJoin root n)).getD ""))
              fs := applyAll root [] inputs } := by
  have hA : ∀ a ∈ inputs, (archivePairs a).isSome = true := fun a ha => (hG a ha).1
  have hNames := allNames_good hG
  have hread : ∀ n ∈ allNames inputs,
      ((applyAll root [] inputs).read (pyJoin root n)).isSome = true := by
    intro n hn
    obtain ⟨pr, hpr, hfst⟩ := List.mem_map.mp hn
    rw [applyAll_read]
    have hmem : (n, pr.2) ∈ allPairs inputs := by
      rw [← hfst]
      exact hpr
    exact overlay_isSome_left (lastWrite_join_isSome root hmem) _
  have hfiles : ∀ p ∈ pySorted ((allNames inputs).map (pyJoin root)),
      (relative_to root p).isSome = true
        ∧ ((applyAll root [] inputs).read p).isSome = true := by
    intro p hp
    rw [mem_pySorted] at hp
    obtain ⟨n, hn, rfl⟩ := List.mem_map.mp hp
    refine ⟨?_, hread n hn⟩
    rw [pyJoin_good root (hNames n hn), relative_to_join]
    rfl
  have hrecords : (allNames inputs).map (pyJoin root)
      = (allNames inputs).map (fun n => root ++ "/" ++ n) :=
    List.map_congr_left (fun n hn => pyJoin_good root (hNames n hn))
  have hentries : (pySorted ((allNames inputs).map (pyJoin root))).map
        (fun p => ((relative_to root p).getD "", ((applyAll root [] inputs).read p).getD ""))
      = (pySorted (allNames inputs)).map
        (fun n => (n, ((applyAll root [] inputs).read (pyJoin root n)).getD "")) := by
    rw [hrecords, pySorted_map _ (fun a b => strLe_join root a b), List.map_map]
    apply List.map_congr_left
    intro n hn
    rw [mem_pySorted] at hn
    have hg := hNames n hn
    simp only [Function.comp_apply]
    rw [relative_to_join, ← pyJoin_good root hg]
    simp
  unfold process_archives
  rw [probeTotal_of_pairs inputs hA, extractLoop_ok root inputs hA]
  show ((match create_output_archive root (applyAll root [] inputs)
      ((allNames inputs).map (pyJoin root)) t c lvl with
    | Except.error e => Except.error e
    | Except.ok (kind, entries) =>
      Except.ok { success := true
                  totalInputFiles := inputs.length
                  totalExtractedFiles := ((allNames inputs).map (pyJoin root)).length
                  totalFiles := (allNames inputs).length
                  processedFiles := (allNames inputs).length
                  records := (allNames inputs).map (pyJoin root)
                  outputKind := kind
                  entries := entries
                  fs := applyAll root [] inputs }) : Except String ProcessResult) = _
  rw [create_ok root (applyAll root [] inputs) ((allNames inputs).map (pyJoin root)) t c lvl
    hT hfiles]
  simp [ProcessResult.mk.injEq, hentries]

/-! ## Lemmas: collisions and last writes -/

theorem lastNamed_mem {p c : String} :
    ∀ {ps : List (String × String)}, lastNamed p ps = some c → (p, c) ∈ ps := by
  intro ps
  induction ps with
  | nil => intro h; cases h
  | cons pr rest ih =>
    obtain ⟨n, d⟩ := pr
    intro h
    cases hrest : lastNamed p rest with
    | some c' =>
      simp only [lastNamed] at h
      rw [hrest] at h
      cases h
      exact List.mem_cons_of_mem _ (ih hrest)
    | none =>
      simp only [lastNamed] at h
      rw [hrest] at h
      by_cases hn : n = p
      · rw [if_pos hn] at h
        cases h
        subst hn
        exact List.mem_cons_self _ _
      · rw [if_neg hn] at h
        cases h

theorem lastWrite_eq_lastNamed (root : String) {p : String} (hp : goodName p = true) :
    ∀ {ps : List (String × String)}, (∀ pr ∈ ps, goodName pr.1 = true) →
      lastWrite root (pyJoin root p) ps = lastNamed p ps := by
  intro ps
  induction ps with
  | nil => intro _; rfl
  | cons pr rest ih =>
    obtain ⟨n, d⟩ := pr
    intro hps
    have hgn : goodName n = true := hps (n, d) (by simp)
    have hrest := ih (fun q hq => hps q (by simp [hq]))
    simp only [lastWrite, lastNamed, hrest]
    cases lastNamed p rest with
    | some c' => rfl
    | none =>
      by_cases hn : n = p
      · subst hn
        simp
      · rw [if_neg (fun hc => hn ((join_inj root hp hgn hc).symm)), if_neg hn]

theorem getLast_all_eq {α : Type} {v : α} :
    ∀ {l : List α}, l ≠ [] → (∀ x ∈ l, x = v) → l.getLast? = some v := by
  intro l
  induction l with
  | nil => intro h _; exact absurd rfl h
  | cons a rest ih =>
    intro _ hall
    cases rest with
    | nil => simp [hall a (by simp)]
    | cons b rest' =>
      rw [List.getLast?_cons_cons]
      exact ih (by simp) (fun x hx => hall x (by simp [hx]))

/-! ## Lemmas: error paths and structural facts about `process_archives` -/

theorem archivePairs_isSome_of_ok {root : String} {fs : FS} {a : Archive}
    {res : List String × FS} (h : extractArchive root fs a = .ok res) :
    (archivePairs a).isSome = true := by
  unfold extractArchive at h
  unfold archivePairs
  by_cases h1 : pyLower (pySuffix a.path) = ".rar"
  · rw [if_pos h1] at h ⊢
    cases hd : a.data <;> rw [hd] at h <;> first | rfl | exact Except.noConfusion h
  · rw [if_neg h1] at h ⊢
    by_cases h2 : pyLower (pySuffix a.path) = ".zip"
    · rw [if_pos h2] at h ⊢
      cases hd : a.data <;> rw [hd] at h <;> first | rfl | exact Except.noConfusion h
    · rw [if_neg h2] at h ⊢
      by_cases h3 : pyLower (pySuffix a.path) ∈ tarExts
      · rw [if_pos h3] at h ⊢
        cases hd : a.data <;> rw [hd] at h <;> first | rfl | exact Except.noConfusion h
      · rw [if_neg h3] at h
        exact Except.noConfusion h

theorem extractArchive_unsupported (root : String) (fs : FS) {a : Archive}
    (h1 : ¬ pyLower (pySuffix a.path) = ".rar") (h2 : ¬ pyLower (pySuffix a.path) = ".zip")
    (h3 : pyLower (pySuffix a.path) ∉ tarExts) :
    extractArchive root fs a
      = .error ("Unsupported archive format: " ++ pyLower (pySuffix a.path)) := by
  unfold extractArchive
  rw [if_neg h1, if_neg h2, if_neg h3]

theorem extractLoop_cons_error (root : String) {a : Archive} {fs : FS} {e : String}
    (hx : extractArchive root fs a = .error e) (ys : List Archive) (recs : List String)
    (k : Nat) : extractLoop root (a :: ys) fs recs k = .error e := by
  have h1 : extractLoop root (a :: ys) fs recs k
      = match extractArchive root fs a with
        | .error e => .error e
        | .ok (extracted, fs') =>
          extractLoop root ys fs' (recs ++ collectRecords root fs' extracted)
            (k + extracted.length) := rfl
  rw [h1, hx]

theorem process_unfold (root : String) (inputs : List Archive) (t c : String) (lvl : Nat) :
    process_archives root inputs t c lvl
      = match probeTotal inputs with
        | .error e => .error e
        | .ok total =>
          match extractLoop root inputs [] [] 0 with
          | .error e => .error e
          | .ok (fs, recs, processed) =>
            match create_output_archive root fs recs t c lvl with
            | .error e => .error e
            | .ok (kind, entries) =>
              .ok { success := true
                    totalInputFiles := inputs.length
                    totalExtractedFiles := recs.length
                    totalFiles := total
                    processedFiles := processed
                    records := recs
                    outputKind := kind
                    entries := entries
                    fs := fs } := rfl

theorem create_entries_length {root : String} {fs : FS} {files : List String}
    {t c : String} {lvl : Nat} {kind : OutputKind} {entries : List (String × String)}
    (h : create_output_archive root fs files t c lvl = .ok (kind, entries)) :
    entries.length = files.length := by
  unfold create_output_archive at h
  by_cases h1 : t = "zip"
  · rw [if_pos h1] at h
    cases hw : writeEntries root fs (pySorted files) with
    | error e => rw [hw] at h; exact Except.noConfusion h
    | ok es =>
      rw [hw] at h
      injection h with h'
      injection h' with hk he
      rw [← he, writeEntries_length root fs _ es hw, pySorted_length]
  · rw [if_neg h1] at h
    by_cases h2 : t = "tar"
    · rw [if_pos h2] at h
      cases hw : writeEntries root fs (pySorted files) with
      | error e => rw [hw] at h; exact Except.noConfusion h
      | ok es =>
        rw [hw] at h
        injection h with h'
        injection h' with hk he
        rw [← he, writeEntries_length root fs _ es hw, pySorted_length]
    · rw [if_neg h2] at h
      by_cases h3 : t = "tar.gz"
      · rw [if_pos h3] at h
        cases hw : writeEntries root fs (pySorted files) with
        | error e => rw [hw] at h; exact Except.noConfusion h
        | ok es =>
          rw [hw] at h
          injection h with h'
          injection h' with hk he
          rw [← he, writeEntries_length root fs _ es hw, pySorted_length]
      · rw [if_neg h3] at h
        by_cases h4 : t = "tar.bz2"
        · rw [if_pos h4] at h
          cases hw : writeEntries root fs (pySorted files) with
          | error e => rw [hw] at h; exact Except.noConfusion h
          | ok es =>
            rw [hw] at h
            injection h with h'
            injection h' with hk he
            rw [← he, writeEntries_length root fs _ es hw, pySorted_length]
        · rw [if_neg h4] at h
          exact Except.noConfusion h

theorem process_success {root : String} {inputs : List Archive} {t c : String}
    {lvl : Nat} {r : ProcessResult}
    (h : process_archives root inputs t c lvl = .ok r) : r.success = true := by
  rw [process_unfold] at h
  cases hp : probeTotal inputs with
  | error e => rw [hp] at h; exact Except.noConfusion h
  | ok total =>
    rw [hp] at h
    cases hl : extractLoop root inputs [] [] 0 with
    | error e => rw [hl] at h; exact Except.noConfusion h
    | ok triple =>
      obtain ⟨fs, recs, processed⟩ := triple
      rw [hl] at h
      have h' : (match create_output_archive root fs recs t c lvl with
        | Except.error e => Except.error e
        | Except.ok (kind, entries) =>
          Except.ok { success := true
                      totalInputFiles := inputs.length
                      totalExtractedFiles := recs.length
                      totalFiles := total
                      processedFiles := processed
                      records := recs
                      outputKind := kind
                      entries := entries
                      fs := fs } : Except String ProcessResult) = .ok r := h
      cases hc : create_output_archive root fs recs t c lvl with
      | error e => rw [hc] at h'; exact Except.noConfusion h'
      | ok pr =>
        obtain ⟨kind, entries⟩ := pr
        rw [hc] at h'
        injection h' with h''
        rw [← h'']

theorem specPresent_of_loop (root : String) :
    ∀ (inputs : List Archive) (fs : FS) (recs : List String) (k : Nat) (fsF : FS)
      (recsF : List String) (kF : Nat),
      extractLoop root inputs fs recs k = .ok (fsF, recsF, kF) →
      ∃ l, specPresentRecords root inputs fs = some l ∧ recsF = recs ++ l := by
  intro inputs
  induction inputs with
  | nil =>
    intro fs recs k fsF recsF kF h
    cases h
    exact ⟨[], rfl, by simp⟩
  | cons a rest ih =>
    intro fs recs k fsF recsF kF h
    have hstep : extractLoop root (a :: rest) fs recs k
        = match extractArchive root fs a with
          | .error e => .error e
          | .ok (extracted, fs') =>
            extractLoop root rest fs' (recs ++ collectRecords root fs' extracted)
              (k + extracted.length) := rfl
    cases hx : extractArchive root fs a with
    | error e =>
      rw [hstep, hx] at h
      exact Except.noConfusion h
    | ok pr =>
      have hsome := archivePairs_isSome_of_ok hx
      obtain ⟨ps, hps⟩ := Option.isSome_iff_exists.mp hsome
      rw [extractArchive_of_pairs root fs hps] at hx
      have hpr : pr = (ps.map Prod.fst, (extractPairs root fs ps).2) := by
        injection hx with h'
        exact h'.symm
      subst hpr
      rw [hstep, extractArchive_of_pairs root fs hps] at h
      have h' : extractLoop root rest (extractPairs root fs ps).2
          (recs ++ collectRecords root (extractPairs root fs ps).2 (ps.map Prod.fst))
          (k + (ps.map Prod.fst).length) = .ok (fsF, recsF, kF) := h
      obtain ⟨l, hspec, hrecs⟩ := ih _ _ _ _ _ _ h'
      refine ⟨((ps.map Prod.fst).filter
          (fun n => ((extractPairs root fs ps).2.read (pyJoin root n)).isSome)).map
            (pyJoin root) ++ l, ?_, ?_⟩
      · simp only [specPresentRecords]
        rw [hps, extractArchive_of_pairs root fs hps]
        show (match specPresentRecords root rest (extractPairs root fs ps).2 with
          | some tail =>
              some ((((ps.map Prod.fst).filter
                (fun n => ((extractPairs root fs ps).2.read (pyJoin root n)).isSome)).map
                  (pyJoin root)) ++ tail)
          | none => none) = _
        rw [hspec]
      · rw [hrecs, List.append_assoc]
        congr 2
        unfold collectRecords
        rw [List.filter_map]
        rfl

/-! ## Lemmas: assorted final helpers -/

theorem except_isOk_iff {ε α : Type} (e : Except ε α) :
    e.isOk = true ↔ ∃ a, e = .ok a := by
  cases e <;> simp [Except.isOk, Except.toBool]

theorem process_unsupported (root : String) (pre : List Archive) (a : Archive)
    (post : List Archive) (t c : String) (lvl : Nat)
    (hpre : ∀ b ∈ pre, (archivePairs b).isSome = true)
    (hbad : ¬ supportedExt a)
    (hprobe : (probeTotal (pre ++ a :: post)).isOk = true) :
    process_archives root (pre ++ a :: post) t c lvl
      = .error ("Unsupported archive format: " ++ pyLower (pySuffix a.path)) := by
  obtain ⟨total, htot⟩ := (except_isOk_iff _).mp hprobe
  simp only [supportedExt, not_or] at hbad
  obtain ⟨h1, h2, h3⟩ := hbad
  rw [process_unfold, htot, extractLoop_append root pre hpre (a :: post) [] [] 0,
    extractLoop_cons_error root
      (extractArchive_unsupported root (applyAll root [] pre) h1 h2 h3) _ _ _]

theorem manifest_map_pair (l : List String) (f : String → String) :
    (List.map (fun n => (n, f n)) l).map Prod.fst = l := by
  induction l with
  | nil => rfl
  | cons x xs ih => simp [ih]

theorem map_fst_comp_pair (f : String → String) (l : List String) :
    List.map (Prod.fst ∘ fun n => (n, f n)) l = l := by
  induction l with
  | nil => rfl
  | cons x xs ih => simp [ih]

theorem readOutput_process_good (root : String) (inputs : List Archive) (t c : String)
    (lvl : Nat) (p v : String) (hG : ∀ a ∈ inputs, goodArchive a)
    (hT : t ∈ (["zip", "tar", "tar.gz", "tar.bz2"] : List String))
    (hp : p ∈ allNames inputs)
    (hv : (applyAll root [] inputs).read (pyJoin root p) = some v) :
    readOutput (process_archives root inputs t c lvl) p = some v := by
  rw [process_good root inputs t c lvl hG hT]
  simp only [readOutput, Except.toOption, Option.some_bind]
  have hfil : (((pySorted (allNames inputs)).map
        (fun n => (n, ((applyAll root [] inputs).read (pyJoin root n)).getD ""))).filter
        (fun en => en.1 = p))
      = ((pySorted (allNames inputs)).filter (fun n => n = p)).map
        (fun n => (n, ((applyAll root [] inputs).read (pyJoin root n)).getD "")) := by
    rw [List.filter_map]
    rfl
  have hmemf : p ∈ (pySorted (allNames inputs)).filter (fun n => n = p) :=
    List.mem_filter.mpr ⟨mem_pySorted.mpr hp, by simp⟩
  rw [hfil, List.map_map]
  apply getLast_all_eq
  · exact List.ne_nil_of_mem (List.mem_map.mpr ⟨p, hmemf, rfl⟩)
  · intro x hx
    obtain ⟨n, hn, rfl⟩ := List.mem_map.mp hx
    have hnp : n = p := by simpa using (List.mem_filter.mp hn).2
    subst hnp
    simp [hv]

/-! ## Claims -/

/-- C1: the spec requires every input whose name ends in `.tar.gz` or
`.tar.bz2` (case-insensitive) to be dispatched to the TAR adapter, counted
during probing and extracted during extraction.  The code disagrees:
`Path.suffix` of such a name is only the last extension (`".gz"` / `".bz2"`),
which is in none of the dispatch lists, so the input contributes `0` to the
probe total and extraction raises `ValueError: Unsupported archive format`.
This theorem evaluates the code at the failing inputs. -/
theorem c1_tar_double_extension_rejected :
    pySuffix "b.tar.gz" = ".gz" ∧ pySuffix "c.tar.bz2" = ".bz2"
    ∧ (".gz" ∉ tarExts) ∧ (".bz2" ∉ tarExts)
    ∧ probeArchive sampleBTarGz = .ok 0
    ∧ probeArchive sampleCTarBz2 = .ok 0
    ∧ extractArchive "/tmp/am" [] sampleBTarGz = .error "Unsupported archive format: .gz"
    ∧ extractArchive "/tmp/am" [] sampleCTarBz2
        = .error "Unsupported archive format: .bz2" :=
  ⟨rfl, rfl, by decide, by decide, rfl, rfl, rfl, rfl⟩

/-- C2: the spec's example scenario (`a.zip` with `x.txt = "1"` plus
`b.tar.gz` with `x.txt = "2"`, `y.txt = "3"`, output `zip`) is required to
succeed with two extracted files.  The code instead raises
`ValueError: Unsupported archive format: .gz` when it reaches `b.tar.gz`,
because `Path.suffix` of `"b.tar.gz"` is `".gz"`. -/
theorem c2_example_scenario_raises :
    process_archives "/tmp/am" [sampleAZip, sampleBTarGz] "zip" "deflate" 6
      = .error "Unsupported archive format: .gz" := rfl

/-- C3 (counterexample): merging `a.zip` and `b.zip`, which both contain
`x.txt`, yields `total_extracted_files = 2` while only one distinct relative
path is written; the manifest holds `x.txt` twice, so records are not
deduplicated by relative path and the count is not the number of unique
paths. -/
theorem c3_counterexample_no_dedup :
    countOf (process_archives "/tmp/am" [sampleAZip, sampleBZip] "zip" "deflate" 6) = some 2
    ∧ manifestOf (process_archives "/tmp/am" [sampleAZip, sampleBZip] "zip" "deflate" 6)
        = some ["x.txt", "x.txt"]
    ∧ uniqueCountOf (process_archives "/tmp/am" [sampleAZip, sampleBZip] "zip" "deflate" 6)
        = some 1
    ∧ countOf (process_archives "/tmp/am" [sampleAZip, sampleBZip] "zip" "deflate" 6)
        ≠ uniqueCountOf (process_archives "/tmp/am" [sampleAZip, sampleBZip] "zip" "deflate" 6) :=
  ⟨rfl, rfl, rfl, by decide⟩

/-- C3 (amended): for every merge that returns normally,
`total_extracted_files` equals the number of members written to the output
counted with multiplicity — a relative path extracted from several inputs is
written once per occurrence and counted once per occurrence; no
deduplication happens. -/
theorem c3_amended_count_with_multiplicity (root : String) (inputs : List Archive)
    (t c : String) (lvl : Nat) :
    countOf (process_archives root inputs t c lvl)
      = manifestLenOf (process_archives root inputs t c lvl) := by
  rw [process_unfold]
  cases hp : probeTotal inputs with
  | error e => rfl
  | ok total =>
    cases hl : extractLoop root inputs [] [] 0 with
    | error e => rfl
    | ok triple =>
      obtain ⟨fs, recs, processed⟩ := triple
      show countOf ((match create_output_archive root fs recs t c lvl with
          | Except.error e => Except.error e
          | Except.ok (kind, entries) =>
            Except.ok { success := true
                        totalInputFiles := inputs.length
                        totalExtractedFiles := recs.length
                        totalFiles := total
                        processedFiles := processed
                        records := recs
                        outputKind := kind
                        entries := entries
                        fs := fs }) : Except String ProcessResult)
        = manifestLenOf ((match create_output_archive root fs recs t c lvl with
          | Except.error e => Except.error e
          | Except.ok (kind, entries) =>
            Except.ok { success := true
                        totalInputFiles := inputs.length
                        totalExtractedFiles := recs.length
                        totalFiles := total
                        processedFiles := processed
                        records := recs
                        outputKind := kind
                        entries := entries
                        fs := fs }) : Except String ProcessResult)
      cases hc : create_output_archive root fs recs t c lvl with
      | error e => rfl
      | ok pr =>
        obtain ⟨kind, entries⟩ := pr
        simp [countOf, manifestLenOf, ProcessResult.manifest, Except.toOption,
          create_entries_length hc]

/-- C4: when two input archives both contain the same relative path `p` with
different contents, the second extraction overwrites the first at the same
temp path (the final filesystem holds the later input's content at
`root / p`), and reading `p` back from the produced output archive yields
the content of the input that appears later in the input list. -/
theorem c4_last_extraction_wins (root t c : String) (lvl : Nat)
    (A B : List (String × String)) (p c1 c2 : String)
    (hgA : ∀ e ∈ A, goodName e.1 = true) (hgB : ∀ e ∈ B, goodName e.1 = true)
    (hA : lastNamed p (A.filter (fun e => !endsSlash e.1)) = some c1)
    (hB : lastNamed p (B.filter (fun e => !endsSlash e.1)) = some c2)
    (hne : c1 ≠ c2)
    (hT : t ∈ (["zip", "tar", "tar.gz", "tar.bz2"] : List String)) :
    fsReadOf (process_archives root [⟨"a.zip", .zipData A⟩, ⟨"b.zip", .zipData B⟩] t c lvl)
        (pyJoin root p) = some c2
    ∧ readOutput (process_archives root [⟨"a.zip", .zipData A⟩, ⟨"b.zip", .zipData B⟩] t c lvl)
        p = some c2 := by
  have hza : archivePairs ⟨"a.zip", .zipData A⟩
      = some (A.filter (fun e => !endsSlash e.1)) := rfl
  have hzb : archivePairs ⟨"b.zip", .zipData B⟩
      = some (B.filter (fun e => !endsSlash e.1)) := rfl
  have hG : ∀ x ∈ [(⟨"a.zip", .zipData A⟩ : Archive), ⟨"b.zip", .zipData B⟩], goodArchive x := by
    intro x hx
    rcases List.mem_cons.mp hx with rfl | hx2
    · refine ⟨by rw [hza]; rfl, ?_⟩
      simp only [hza, Option.getD_some]
      intro pr hpr
      exact hgA pr (List.mem_of_mem_filter hpr)
    · rcases List.mem_cons.mp hx2 with rfl | hx3
      · refine ⟨by rw [hzb]; rfl, ?_⟩
        simp only [hzb, Option.getD_some]
        intro pr hpr
        exact hgB pr (List.mem_of_mem_filter hpr)
      · exact absurd hx3 (List.not_mem_nil x)
  have hpairs : allPairs [(⟨"a.zip", .zipData A⟩ : Archive), ⟨"b.zip", .zipData B⟩]
      = A.filter (fun e => !endsSlash e.1) ++ B.filter (fun e => !endsSlash e.1) := by
    simp [allPairs, hza, hzb]
  have hpB : (p, c2) ∈ B.filter (fun e => !endsSlash e.1) := lastNamed_mem hB
  have hgp : goodName p = true := hgB (p, c2) (List.mem_of_mem_filter hpB)
  have hfs : (applyAll root []
        [(⟨"a.zip", .zipData A⟩ : Archive), ⟨"b.zip", .zipData B⟩]).read (pyJoin root p)
      = some c2 := by
    rw [applyAll_read, hpairs, lastWrite_append]
    have hlwB : lastWrite root (pyJoin root p) (B.filter (fun e => !endsSlash e.1))
        = some c2 := by
      rw [lastWrite_eq_lastNamed root hgp
        (fun pr hpr => hgB pr (List.mem_of_mem_filter hpr))]
      exact hB
    rw [hlwB]
    rfl
  have hpn : p ∈ allNames [(⟨"a.zip", .zipData A⟩ : Archive), ⟨"b.zip", .zipData B⟩] := by
    rw [show allNames [(⟨"a.zip", .zipData A⟩ : Archive), ⟨"b.zip", .zipData B⟩]
      = (allPairs [(⟨"a.zip", .zipData A⟩ : Archive), ⟨"b.zip", .zipData B⟩]).map Prod.fst
      from rfl, hpairs]
    exact List.mem_map.mpr ⟨(p, c2), List.mem_append.mpr (Or.inr hpB), rfl⟩
  refine ⟨?_, readOutput_process_good root _ t c lvl p c2 hG hT hpn hfs⟩
  rw [process_good root _ t c lvl hG hT]
  simpa [fsReadOf, Except.toOption] using hfs

/-- C5: the write step sorts the manifest lexicographically by relative path
(the full temp paths share the root prefix, so their byte-wise order is the
relative paths' byte-wise order), hence for a fixed input list and options
every run—whatever temp root the OS hands out—produces the same manifest in
the same member order. -/
theorem c5_deterministic_sorted_manifest (inputs : List Archive) (t c : String)
    (lvl : Nat) (hG : ∀ a ∈ inputs, goodArchive a)
    (hT : t ∈ (["zip", "tar", "tar.gz", "tar.bz2"] : List String)) :
    ∀ root1 root2 : String,
      manifestOf (process_archives root1 inputs t c lvl)
          = some (pySorted (allNames inputs))
      ∧ manifestOf (process_archives root2 inputs t c lvl)
          = manifestOf (process_archives root1 inputs t c lvl) := by
  have key : ∀ root : String, manifestOf (process_archives root inputs t c lvl)
      = some (pySorted (allNames inputs)) := by
    intro root
    rw [process_good root inputs t c lvl hG hT]
    simp [manifestOf, Except.toOption, ProcessResult.manifest, manifest_map_pair,
      map_fst_comp_pair]
  intro r1 r2
  exact ⟨key r1, (key r2).trans (key r1).symm⟩

/-- C6 (counterexample): for output format `tar` the compression kind is
consulted: with `compression = "gzip"` the container is opened as `w:gz`
(a gzip-compressed tar), not as an uncompressed `w` tar, refuting
"uncompressed regardless of the compressionKind argument". -/
theorem c6_counterexample_tar_gzip :
    create_output_archive "/tmp/am" [] [] "tar" "gzip" 6
      = .ok (.tarMode "w:gz", [])
    ∧ OutputKind.tarMode "w:gz" ≠ OutputKind.tarMode "w" :=
  ⟨rfl, by decide⟩

/-- C6 (amended): ZIP output uses the deflate method with the caller's
numeric level; `tar.gz` and `tar.bz2` outputs fix gzip and bzip2 regardless
of the compressionKind argument; but output format `tar` does consult the
compressionKind: it writes a gzip-compressed tar when the kind is `"gzip"`
and an uncompressed tar for every other kind. -/
theorem c6_amended_output_kinds (root : String) (fs : FS) (files : List String)
    (c : String) (lvl : Nat) :
    (∀ kind entries, create_output_archive root fs files "zip" c lvl = .ok (kind, entries) →
        kind = .zipDeflate lvl)
    ∧ (∀ kind entries, create_output_archive root fs files "tar" c lvl = .ok (kind, entries) →
        kind = .tarMode (if c = "gzip" then "w:gz" else "w"))
    ∧ (∀ kind entries, create_output_archive root fs files "tar.gz" c lvl = .ok (kind, entries) →
        kind = .tarMode "w:gz")
    ∧ (∀ kind entries, create_output_archive root fs files "tar.bz2" c lvl = .ok (kind, entries) →
        kind = .tarMode "w:bz2") := by
  refine ⟨?_, ?_, ?_, ?_⟩
  · intro kind entries h
    unfold create_output_archive at h
    rw [if_pos rfl] at h
    cases hw : writeEntries root fs (pySorted files) with
    | error e => rw [hw] at h; exact Except.noConfusion h
    | ok es =>
      rw [hw] at h
      injection h with h'
      injection h' with hk he
      exact hk.symm
  · intro kind entries h
    unfold create_output_archive at h
    rw [if_neg (by decide), if_pos rfl] at h
    cases hw : writeEntries root fs (pySorted files) with
    | error e => rw [hw] at h; exact Except.noConfusion h
    | ok es =>
      rw [hw] at h
      injection h with h'
      injection h' with hk he
      exact hk.symm
  · intro kind entries h
    unfold create_output_archive at h
    rw [if_neg (by decide), if_neg (by decide), if_pos rfl] at h
    cases hw : writeEntries root fs (pySorted files) with
    | error e => rw [hw] at h; exact Except.noConfusion h
    | ok es =>
      rw [hw] at h
      injection h with h'
      injection h' with hk he
      exact hk.symm
  · intro kind entries h
    unfold create_output_archive at h
    rw [if_neg (by decide), if_neg (by decide), if_neg (by decide), if_pos rfl] at h
    cases hw : writeEntries root fs (pySorted files) with
    | error e => rw [hw] at h; exact Except.noConfusion h
    | ok es =>
      rw [hw] at h
      injection h with h'
      injection h' with hk he
      exact hk.symm

/-- C6 (witness): the amended claim at a concrete input: `tar` output with
compression kind `bzip2` selects the uncompressed `w` mode. -/
theorem c6_amended_output_kinds_witness :
    create_output_archive "/tmp/am" [] [] "tar" "bzip2" 3 = .ok (.tarMode "w", [])
    ∧ OutputKind.tarMode "w"
        = .tarMode (if ("bzip2" : String) = "gzip" then "w:gz" else "w") :=
  ⟨rfl, ((c6_amended_output_kinds "/tmp/am" [] [] "bzip2" 3).2.1 _ _ rfl).symm⟩

/-- C7: when `process_archives` returns normally, `extracted_files` is
exactly, input by input in order, the list of non-directory members the
adapter listed whose joined temp path exists on disk after that input's
extraction (a listed-but-missing member would be silently dropped, not an
error), matching the spec's invariant rendered by `specPresentRecords`. -/
theorem c7_records_are_present_members (root : String) (inputs : List Archive)
    (t c : String) (lvl : Nat)
    (hOk : (process_archives root inputs t c lvl).isOk = true) :
    recordsOf (process_archives root inputs t c lvl)
      = specPresentRecords root inputs [] := by
  obtain ⟨r, hr⟩ := (except_isOk_iff _).mp hOk
  rw [process_unfold] at hr
  cases hp : probeTotal inputs with
  | error e => rw [hp] at hr; exact Except.noConfusion hr
  | ok total =>
    rw [hp] at hr
    cases hl : extractLoop root inputs [] [] 0 with
    | error e => rw [hl] at hr; exact Except.noConfusion hr
    | ok triple =>
      obtain ⟨fs, recs, processed⟩ := triple
      rw [hl] at hr
      obtain ⟨l, hspec, hrecs⟩ := specPresent_of_loop root inputs [] [] 0 fs recs processed hl
      rw [List.nil_append] at hrecs
      subst hrecs
      have hr' : (match create_output_archive root fs recs t c lvl with
        | Except.error e => Except.error e
        | Except.ok (kind, entries) =>
          Except.ok { success := true
                      totalInputFiles := inputs.length
                      totalExtractedFiles := recs.length
                      totalFiles := total
                      processedFiles := processed
                      records := recs
                      outputKind := kind
                      entries := entries
                      fs := fs } : Except String ProcessResult) = .ok r := hr
      rw [process_unfold, hp, hl, hspec]
      show recordsOf ((match create_output_archive root fs recs t c lvl with
        | Except.error e => Except.error e
        | Except.ok (kind, entries) =>
          Except.ok { success := true
                      totalInputFiles := inputs.length
                      totalExtractedFiles := recs.length
                      totalFiles := total
                      processedFiles := processed
                      records := recs
                      outputKind := kind
                      entries := entries
                      fs := fs }) : Except String ProcessResult) = some recs
      cases hc : create_output_archive root fs recs t c lvl with
      | error e => rw [hc] at hr'; exact Except.noConfusion hr'
      | ok pr =>
        obtain ⟨kind, entries⟩ := pr
        rfl

/-- C8: the temp-directory lifetime is a scoped acquisition around the whole
operation: whether `process_archives` returns normally or raises, `__exit__`
runs and the extraction root is removed on every exit path. -/
theorem c8_temp_dir_released (root : String) (inputs : List Archive) (t c : String)
    (lvl : Nat) :
    (withMerger (process_archives root inputs t c lvl)).2 = .absent := by
  unfold withMerger
  cases process_archives root inputs t c lvl <;> rfl

/-- C9: `process_archives` never returns a failure-valued dictionary: every
normal return has `success = True`, and errors are raised instead — in
particular an input with an unrecognized extension, reached after
well-formed predecessors with the probe phase passing, aborts the run with
`ValueError: Unsupported archive format` before that input is extracted. -/
theorem c9_no_failure_result (root t c : String) (lvl : Nat) :
    (∀ (inputs : List Archive) (r : ProcessResult),
        process_archives root inputs t c lvl = .ok r → r.success = true)
    ∧ (∀ (pre : List Archive) (a : Archive) (post : List Archive),
        (∀ b ∈ pre, (archivePairs b).isSome = true) → ¬ supportedExt a →
        (probeTotal (pre ++ a :: post)).isOk = true →
        process_archives root (pre ++ a :: post) t c lvl
          = .error ("Unsupported archive format: " ++ pyLower (pySuffix a.path))) :=
  ⟨fun _ _ h => process_success h,
   fun pre a post h1 h2 h3 => process_unsupported root pre a post t c lvl h1 h2 h3⟩

/-- C9 (witness): the two parts at concrete inputs: a successful single-zip
merge returns `success = true`, and appending `archive.7z` aborts with the
unsupported-format error. -/
theorem c9_no_failure_result_witness :
    (∀ r, process_archives "/tmp/am" [sampleAZip] "zip" "deflate" 6 = .ok r →
        r.success = true)
    ∧ process_archives "/tmp/am" [sampleAZip, sampleSevenZ] "zip" "deflate" 6
        = .error "Unsupported archive format: .7z" := by
  constructor
  · exact fun r h => (c9_no_failure_result "/tmp/am" "zip" "deflate" 6).1 [sampleAZip] r h
  · exact (c9_no_failure_result "/tmp/am" "zip" "deflate" 6).2 [sampleAZip] sampleSevenZ []
      (by decide) (by decide) rfl

/-- C10: extraction joins the extraction root directly with the untrusted
member name — a single-member archive writes exactly at `pyJoin root name`
with no normalization or containment check — and for an absolute member name
such as `/etc/evil` the written path replaces the root entirely and does not
lie under it. -/
theorem c10_no_containment_check :
    (∀ (root : String) (fs : FS) (n cnt : String), (!endsSlash n) = true →
        extract_zip root fs [(n, cnt)] = ([n], fs.write (pyJoin root n) cnt))
    ∧ (∀ (root : String) (fs : FS) (n cnt : String), (!endsSlash n) = true →
        extract_rar root fs [(n, cnt)] = ([n], fs.write (pyJoin root n) cnt))
    ∧ pyJoin "/tmp/archivemaster_x" "/etc/evil" = "/etc/evil"
    ∧ (extract_zip "/tmp/archivemaster_x" [] [("/etc/evil", "boom")]).2.read "/etc/evil"
        = some "boom"
    ∧ listStarts ("/tmp/archivemaster_x/".toList) ("/etc/evil".toList) = false := by
  refine ⟨?_, ?_, rfl, rfl, by decide⟩
  · intro root fs n cnt h
    simp [extract_zip, extractFiltered, h]
  · intro root fs n cnt h
    simp [extract_rar, extractFiltered, h]

/-- C10 (witness): the join equation at a concrete relative member name. -/
theorem c10_no_containment_check_witness :
    (!endsSlash "payload.txt") = true
    ∧ extract_zip "/tmp/am" [] [("payload.txt", "x")]
        = (["payload.txt"], FS.write [] (pyJoin "/tmp/am" "payload.txt") "x") :=
  ⟨by decide, c10_no_containment_check.1 "/tmp/am" [] "payload.txt" "x" (by decide)⟩

/-- C4 (witness): the collision theorem at the concrete inputs `a.zip`
(`x.txt = "1"`) and `b.zip` (`x.txt = "2"`): the output's `x.txt` is `"2"`. -/
theorem c4_last_extraction_wins_witness :
    lastNamed "x.txt" ([("x.txt", "1")].filter (fun e => !endsSlash e.1)) = some "1"
    ∧ lastNamed "x.txt" ([("x.txt", "2")].filter (fun e => !endsSlash e.1)) = some "2"
    ∧ fsReadOf (process_archives "/tmp/am"
        [⟨"a.zip", .zipData [("x.txt", "1")]⟩, ⟨"b.zip", .zipData [("x.txt", "2")]⟩]
        "zip" "deflate" 6) (pyJoin "/tmp/am" "x.txt") = some "2"
    ∧ readOutput (process_archives "/tmp/am"
        [⟨"a.zip", .zipData [("x.txt", "1")]⟩, ⟨"b.zip", .zipData [("x.txt", "2")]⟩]
        "zip" "deflate" 6) "x.txt" = some "2" := by
  have h := c4_last_extraction_wins "/tmp/am" "zip" "deflate" 6
    [("x.txt", "1")] [("x.txt", "2")] "x.txt" "1" "2"
    (by decide) (by decide) (by decide) (by decide) (by decide) (by decide)
  exact ⟨by decide, by decide, h.1, h.2⟩

/-- C5 (witness): determinism at concrete inputs and two different roots. -/
theorem c5_deterministic_sorted_manifest_witness :
    manifestOf (process_archives "/tmp/r1" [sampleAZip, sampleBZip] "zip" "deflate" 6)
        = some (pySorted (allNames [sampleAZip, sampleBZip]))
    ∧ manifestOf (process_archives "/tmp/r2" [sampleAZip, sampleBZip] "zip" "deflate" 6)
        = manifestOf (process_archives "/tmp/r1" [sampleAZip, sampleBZip] "zip" "deflate" 6) := by
  have h := c5_deterministic_sorted_manifest [sampleAZip, sampleBZip] "zip" "deflate" 6
    (by decide) (by decide) "/tmp/r1" "/tmp/r2"
  exact ⟨h.1, h.2⟩

/-- C7 (witness): the records/spec agreement at a concrete colliding merge. -/
theorem c7_records_are_present_members_witness :
    (process_archives "/tmp/am" [sampleAZip, sampleBZip] "zip" "deflate" 6).isOk = true
    ∧ recordsOf (process_archives "/tmp/am" [sampleAZip, sampleBZip] "zip" "deflate" 6)
        = specPresentRecords "/tmp/am" [sampleAZip, sampleBZip] [] :=
  ⟨rfl, c7_records_are_present_members "/tmp/am" [sampleAZip, sampleBZip]
    "zip" "deflate" 6 rfl⟩

end ArchiveMaster
